import Mathlib

/-!
# Longest palindromic substring by interval dynamic programming

A verification development for the scan loop of `Theory/e.cpp`.

The fragment is a pair of nested `for` loops over `int L`, `int i` that fills a
two-dimensional boolean table `dp` and maintains the best result `(begin, len)`.
The variables `s`, `n`, `dp`, `begin` and `len` are declared outside the
fragment; they are parameters of the embedding.  Loop counters and the result
record are signed integers (`Int`); sizes are assumed to stay far below
`2^31`, so no wrap-around is modelled.  Every access `s[k]`, `dp[a][b]` is
checked: an index outside the container makes the whole run `none`.
The `#if DEBUG` tracing only prints and is left out.
-/

namespace LongestPalindrome

/-! ## Data model -/

/-- The boolean table `dp`, a sequence of rows. -/
abbrev Table := List (List Bool)

/-- The mutable variables of the fragment: the table and the result record. -/
structure State where
  dp : Table
  begin : Int
  len : Int
deriving DecidableEq

/-- Checked read `s[k]` with a signed index. -/
def charAt (s : List Char) (k : Int) : Option Char :=
  if 0 ≤ k then s[k.toNat]? else none

/-- Checked read `dp[a][b]` with signed indices. -/
def getCell (dp : Table) (a b : Int) : Option Bool :=
  if 0 ≤ a ∧ 0 ≤ b then
    match dp[a.toNat]? with
    | some row => row[b.toNat]?
    | none => none
  else none

/-- Checked write `dp[a][b] = v` with signed indices. -/
def setCell (dp : Table) (a b : Int) (v : Bool) : Option Table :=
  if 0 ≤ a ∧ 0 ≤ b then
    match dp[a.toNat]? with
    | some row =>
      if b.toNat < row.length then some (dp.set a.toNat (row.set b.toNat v)) else none
    | none => none
  else none

/-! ## The scan loop -/

/-- Body of the inner loop (lines 6-38) for the current `L` and `i`. -/
def body (s : List Char) (L i : Int) (st : State) : Option State :=
  let j := i + L - 1
  match charAt s i, charAt s j with
  | some si, some sj =>
    let written : Option Table :=
      if si ≠ sj then
        setCell st.dp i j false
      else if L ≤ 3 then
        setCell st.dp i j true
      else
        match getCell st.dp (i + 1) (j - 1) with
        | some v => setCell st.dp i j v
        | none => none
    match written with
    | some dp1 =>
      match getCell dp1 i j with
      | some d =>
        if d = true ∧ L > st.len then some { dp := dp1, begin := i, len := L }
        else some { dp := dp1, begin := st.begin, len := st.len }
      | none => none
    | none => none
  | _, _ => none

/-- Inner loop `for (int i = 0; i <= n - L; i++)`, entered at the loop test with
the current value of `i`. -/
def innerLoop (s : List Char) (n L : Int) (i : Int) (st : State) : Option State :=
  if i ≤ n - L then
    match body s L i st with
    | some st1 => innerLoop s n L (i + 1) st1
    | none => none
  else some st
termination_by (n - L + 1 - i).toNat
decreasing_by omega

/-- Outer loop `for (int L = 2; L <= n; ++L)`, entered at the loop test with the
current value of `L`. -/
def outerLoop (s : List Char) (n : Int) (L : Int) (st : State) : Option State :=
  if L ≤ n then
    match innerLoop s n L 0 st with
    | some st1 => outerLoop s n (L + 1) st1
    | none => none
  else some st
termination_by (n + 1 - L).toNat
decreasing_by omega

/-- The whole fragment, run on table `dp` with the result seeded `(begin, len)`. -/
def scan (s : List Char) (n : Int) (dp : Table) (begin len : Int) : Option State :=
  outerLoop s n 2 { dp := dp, begin := begin, len := len }

/-! ## Scan order -/

/-- The steps `(L, i)` of the inner loop for one `L`, in execution order. -/
def innerSchedule (n L : Int) : List (Int × Int) :=
  (List.range (n - L + 1).toNat).map (fun (k : Nat) => (L, (k : Int)))

/-- The steps `(L, i)` of the whole scan, in execution order. -/
def schedule (n : Int) : List (Int × Int) :=
  (List.range (n - 1).toNat).flatMap (fun (k : Nat) => innerSchedule n ((k : Int) + 2))

/-- Run the loop body at the given steps, in order. -/
def runSteps (s : List Char) : List (Int × Int) → State → Option State
  | [], st => some st
  | (L, i) :: rest, st =>
    match body s L i st with
    | some st1 => runSteps s rest st1
    | none => none

/-! ## Specification vocabulary -/

/-- The contiguous substring of `s` that starts at `b` and has `l` symbols. -/
def substr (s : List Char) (b l : Nat) : List Char := (s.drop b).take l

/-- A sequence is a palindrome when it reads the same forwards and backwards. -/
def Palindromic (t : List Char) : Prop := t.reverse = t

instance (t : List Char) : Decidable (Palindromic t) := by
  unfold Palindromic; infer_instance

/-- The substring `s[i..j]` (inclusive, signed indices) is a palindrome. -/
def PalAt (s : List Char) (i j : Int) : Prop :=
  Palindromic (substr s i.toNat (j - i + 1).toNat)

instance (s : List Char) (i j : Int) : Decidable (PalAt s i j) := by
  unfold PalAt; infer_instance

/-- An `n`-by-`n` table. -/
def Square (n : Int) (dp : Table) : Prop :=
  (dp.length : Int) = n ∧ ∀ row ∈ dp, (row.length : Int) = n

instance (n : Int) (dp : Table) : Decidable (Square n dp) := by
  unfold Square; infer_instance

/-- The `n`-by-`n` table with every cell `false`. -/
def blank (n : Nat) : Table := List.replicate n (List.replicate n false)

/-- Scan order on steps: shorter substrings first, then smaller start index. -/
def Before (p q : Int × Int) : Prop := p.1 < q.1 ∨ (p.1 = q.1 ∧ p.2 < q.2)

/-- What holds once the steps `pre` have run from table `dp0` and seed `(b0, l0)`:
the table is still square, exactly the cells of the steps taken hold the
palindrome verdict and every other cell is untouched, and the result record is
either the seed or the first longest palindrome examined. -/
structure Inv (s : List Char) (n : Int) (dp0 : Table) (b0 l0 : Int)
    (pre : List (Int × Int)) (st : State) : Prop where
  square : Square n st.dp
  cells : ∀ x y, getCell st.dp x y
    = if (y - x + 1, x) ∈ pre then some (decide (PalAt s x y)) else getCell dp0 x y
  bound : ∀ p ∈ pre, PalAt s p.2 (p.2 + p.1 - 1) → p.1 ≤ st.len
  mono : l0 ≤ st.len
  result : (st.begin = b0 ∧ st.len = l0) ∨
    (l0 < st.len ∧ (st.len, st.begin) ∈ pre ∧ PalAt s st.begin (st.begin + st.len - 1) ∧
      ∀ p ∈ pre, PalAt s p.2 (p.2 + p.1 - 1) → p.1 = st.len → st.begin ≤ p.2)

/-! ## Scenario inputs -/

/-- Scenario A, the string `babad`. -/
def babad : List Char := ['b', 'a', 'b', 'a', 'd']

/-- Scenario B, the string `cbbd`. -/
def cbbd : List Char := ['c', 'b', 'b', 'd']

/-- Scenario E, the string `aaaa`. -/
def aaaa : List Char := ['a', 'a', 'a', 'a']

/-- Scenario F, the string `abcde`. -/
def abcde : List Char := ['a', 'b', 'c', 'd', 'e']

/-- A string whose longest palindrome starts elsewhere once it is reversed. -/
def aab : List Char := ['a', 'a', 'b']


/-! ## Table accesses -/

theorem getCell_setCell {dp dp1 : Table} {a b : Int} {v : Bool}
    (h : setCell dp a b v = some dp1) (x y : Int) :
    getCell dp1 x y = if x = a ∧ y = b then some v else getCell dp x y := by
  unfold setCell at h
  split at h
  · rename_i hab
    split at h
    · rename_i row hrow
      split at h
      · rename_i hb
        simp only [Option.some.injEq] at h
        subst h
        have halt : a.toNat < dp.length := by
          rcases Nat.lt_or_ge a.toNat dp.length with hlt | hge
          · exact hlt
          · rw [List.getElem?_eq_none hge] at hrow; cases hrow
        unfold getCell
        by_cases hxy : 0 ≤ x ∧ 0 ≤ y
        · rw [if_pos hxy, if_pos hxy]
          by_cases hxa : x = a
          · subst hxa
            rw [List.getElem?_set_self halt, hrow]
            by_cases hyb : y = b
            · subst hyb
              simp [List.getElem?_set_self hb]
            · have hne : b.toNat ≠ y.toNat := by omega
              simp [List.getElem?_set_ne hne, hyb]
          · have hne : a.toNat ≠ x.toNat := by omega
            rw [List.getElem?_set_ne hne]
            simp [hxa]
        · rw [if_neg hxy, if_neg hxy]
          have : ¬ (x = a ∧ y = b) := by omega
          simp [this]
      · cases h
    · cases h
  · cases h

theorem setCell_square {n : Int} {dp dp1 : Table} {a b : Int} {v : Bool}
    (hsq : Square n dp) (h : setCell dp a b v = some dp1) : Square n dp1 := by
  unfold setCell at h
  split at h
  · split at h
    · rename_i row hrow
      split at h
      · simp only [Option.some.injEq] at h
        subst h
        refine ⟨by simpa using hsq.1, ?_⟩
        intro r hr
        rcases List.mem_or_eq_of_mem_set hr with hr1 | hr1
        · exact hsq.2 r hr1
        · subst hr1
          have := hsq.2 row (List.getElem?_mem hrow)
          simpa using this
      · cases h
    · cases h
  · cases h

theorem getCell_isSome {n : Int} {dp : Table} (hsq : Square n dp) {a b : Int}
    (ha : 0 ≤ a) (han : a < n) (hb : 0 ≤ b) (hbn : b < n) :
    ∃ v, getCell dp a b = some v := by
  have hlen := hsq.1
  have halt : a.toNat < dp.length := by omega
  have hrow := hsq.2 (dp[a.toNat]) (List.getElem_mem halt)
  have hblt : b.toNat < (dp[a.toNat]).length := by omega
  refine ⟨(dp[a.toNat])[b.toNat], ?_⟩
  unfold getCell
  rw [if_pos ⟨ha, hb⟩, List.getElem?_eq_getElem halt]
  simp [List.getElem?_eq_getElem hblt]

theorem setCell_isSome {n : Int} {dp : Table} (hsq : Square n dp) {a b : Int}
    (ha : 0 ≤ a) (han : a < n) (hb : 0 ≤ b) (hbn : b < n) (v : Bool) :
    ∃ dp1, setCell dp a b v = some dp1 := by
  have hlen := hsq.1
  have halt : a.toNat < dp.length := by omega
  have hrow := hsq.2 (dp[a.toNat]) (List.getElem_mem halt)
  have hblt : b.toNat < (dp[a.toNat]).length := by omega
  refine ⟨dp.set a.toNat ((dp[a.toNat]).set b.toNat v), ?_⟩
  unfold setCell
  rw [if_pos ⟨ha, hb⟩, List.getElem?_eq_getElem halt]
  simp [hblt]

theorem charAt_isSome {s : List Char} {k : Int} (hk : 0 ≤ k) (hkn : k < s.length) :
    ∃ c, charAt s k = some c := by
  have : k.toNat < s.length := by omega
  exact ⟨s[k.toNat], by unfold charAt; rw [if_pos hk, List.getElem?_eq_getElem this]⟩

/-! ## The loops run the body along the schedule -/

theorem runSteps_append (s : List Char) (xs ys : List (Int × Int)) (st : State) :
    runSteps s (xs ++ ys) st = (runSteps s xs st).bind (runSteps s ys) := by
  induction xs generalizing st with
  | nil => simp [runSteps]
  | cons p rest ih =>
    obtain ⟨L, i⟩ := p
    simp only [List.cons_append, runSteps]
    cases body s L i st with
    | none => simp
    | some st1 => simpa using ih st1

theorem innerLoop_eq_aux (s : List Char) (n L : Int) :
    ∀ (m : Nat) (i : Int) (st : State), 0 ≤ i → (n - L + 1 - i).toNat = m →
      innerLoop s n L i st
        = runSteps s ((List.range' i.toNat m).map (fun (k : Nat) => (L, (k : Int)))) st := by
  intro m
  induction m with
  | zero =>
    intro i st _ hm
    rw [innerLoop, if_neg (by omega)]
    simp [runSteps]
  | succ m ih =>
    intro i st hi hm
    rw [innerLoop, if_pos (by omega), List.range'_succ]
    have hcast : ((i.toNat : Nat) : Int) = i := by omega
    simp only [List.map_cons, runSteps, hcast]
    cases body s L i st with
    | none => rfl
    | some st1 =>
      have h := ih (i + 1) st1 (by omega) (by omega)
      have hsucc : (i + 1).toNat = i.toNat + 1 := by omega
      rw [hsucc] at h
      simpa using h

theorem innerLoop_eq (s : List Char) (n L : Int) (st : State) :
    innerLoop s n L 0 st = runSteps s (innerSchedule n L) st := by
  have h := innerLoop_eq_aux s n L (n - L + 1).toNat 0 st (le_refl 0) (by simp)
  simpa [innerSchedule, List.range_eq_range'] using h

theorem outerLoop_eq_aux (s : List Char) (n : Int) :
    ∀ (m : Nat) (L : Int) (st : State), 2 ≤ L → (n + 1 - L).toNat = m →
      outerLoop s n L st
        = runSteps s ((List.range' (L - 2).toNat m).flatMap
            (fun (k : Nat) => innerSchedule n ((k : Int) + 2))) st := by
  intro m
  induction m with
  | zero =>
    intro L st _ hm
    rw [outerLoop, if_neg (by omega)]
    simp [runSteps]
  | succ m ih =>
    intro L st hL hm
    rw [outerLoop, if_pos (by omega), List.range'_succ, List.flatMap_cons, runSteps_append]
    have hcast : (((L - 2).toNat : Nat) : Int) + 2 = L := by omega
    rw [hcast, innerLoop_eq]
    cases runSteps s (innerSchedule n L) st with
    | none => rfl
    | some st1 =>
      have h := ih (L + 1) st1 (by omega) (by omega)
      have hsucc : (L + 1 - 2).toNat = (L - 2).toNat + 1 := by omega
      rw [hsucc] at h
      simpa using h

theorem scan_eq_runSteps (s : List Char) (n : Int) (dp : Table) (b l : Int) :
    scan s n dp b l = runSteps s (schedule n) { dp := dp, begin := b, len := l } := by
  have h := outerLoop_eq_aux s n (n - 1).toNat 2 { dp := dp, begin := b, len := l }
    (le_refl 2) (by omega)
  simpa [scan, schedule, List.range_eq_range'] using h

/-! ## Shape of the schedule -/

theorem mem_innerSchedule {n L : Int} {p : Int × Int} :
    p ∈ innerSchedule n L ↔ p.1 = L ∧ 0 ≤ p.2 ∧ p.2 ≤ n - L := by
  obtain ⟨a, b⟩ := p
  simp only [innerSchedule, List.mem_map, List.mem_range, Prod.mk.injEq]
  constructor
  · rintro ⟨k, hk, rfl, rfl⟩
    refine ⟨rfl, by omega, by omega⟩
  · rintro ⟨rfl, h0, h1⟩
    exact ⟨b.toNat, by omega, rfl, by omega⟩

theorem mem_schedule {n : Int} {p : Int × Int} :
    p ∈ schedule n ↔ 2 ≤ p.1 ∧ p.1 ≤ n ∧ 0 ≤ p.2 ∧ p.2 ≤ n - p.1 := by
  simp only [schedule, List.mem_flatMap, List.mem_range, mem_innerSchedule]
  constructor
  · rintro ⟨k, hk, h1, h2, h3⟩
    refine ⟨by omega, by omega, h2, by omega⟩
  · rintro ⟨h1, h2, h3, h4⟩
    exact ⟨(p.1 - 2).toNat, by omega, by omega, h3, by omega⟩

theorem schedule_sorted (n : Int) : (schedule n).Pairwise Before := by
  unfold schedule
  rw [List.pairwise_flatMap]
  constructor
  · intro k _
    unfold innerSchedule
    rw [List.pairwise_map]
    refine (List.pairwise_lt_range _).imp ?_
    intro a b hab
    exact Or.inr ⟨rfl, by simpa using hab⟩
  · refine (List.pairwise_lt_range _).imp ?_
    intro a b hab p hp q hq
    rw [mem_innerSchedule] at hp hq
    exact Or.inl (by omega)

theorem sum_countdown (c : Nat) :
    ∀ m : Nat, m ≤ c + 1 →
      2 * ((List.range m).map (fun k => c - k)).sum + m * m = m * (2 * c + 1) := by
  intro m
  induction m with
  | zero => intro _; simp
  | succ m ih =>
    intro hm
    have h := ih (by omega)
    rw [List.range_succ, List.map_append, List.sum_append]
    simp only [List.map_cons, List.map_nil, List.sum_cons, List.sum_nil]
    have hc : c - m + m = c := by omega
    nlinarith [h, hc]

theorem schedule_length_nat (m : Nat) :
    2 * (schedule ((m : Int) + 1)).length = m * (m + 1) := by
  have hlen : (schedule ((m : Int) + 1)).length
      = ((List.range m).map (fun k => m - k)).sum := by
    unfold schedule
    rw [List.length_flatMap]
    have h1 : ((m : Int) + 1 - 1).toNat = m := by omega
    rw [h1]
    congr 1
    apply List.map_congr_left
    intro k hk
    rw [List.mem_range] at hk
    simp only [Function.comp, innerSchedule, List.length_map, List.length_range]
    omega
  have h := sum_countdown m m (by omega)
  rw [hlen]
  nlinarith [h]

/-! ## Palindromes -/

theorem palindromic_of_length_le_one {t : List Char} (h : t.length ≤ 1) : Palindromic t := by
  unfold Palindromic
  match t, h with
  | [], _ => rfl
  | [_], _ => rfl

theorem palindromic_cons_snoc (a c : Char) (m : List Char) :
    Palindromic (a :: (m ++ [c])) ↔ a = c ∧ Palindromic m := by
  unfold Palindromic
  rw [List.reverse_cons, List.reverse_append, List.reverse_singleton, List.singleton_append,
    List.cons_append, List.cons.injEq]
  constructor
  · rintro ⟨h1, h2⟩
    exact ⟨h1.symm, (List.append_inj' h2 rfl).1⟩
  · rintro ⟨h1, h2⟩
    exact ⟨h1.symm, by rw [h2, h1]⟩

theorem substr_split (s : List Char) (b l : Nat) (h : b + l + 2 ≤ s.length) :
    ∃ a c, s[b]? = some a ∧ s[b + l + 1]? = some c ∧
      substr s b (l + 2) = a :: (substr s (b + 1) l ++ [c]) := by
  have hb : b < s.length := by omega
  have hc : b + l + 1 < s.length := by omega
  refine ⟨s[b], s[b + l + 1], List.getElem?_eq_getElem hb, List.getElem?_eq_getElem hc, ?_⟩
  unfold substr
  rw [List.drop_eq_getElem_cons hb, List.take_succ_cons, List.take_succ]
  have hget : (List.drop (b + 1) s)[l]? = some s[b + l + 1] := by
    rw [List.getElem?_drop]
    have : b + 1 + l = b + l + 1 := by omega
    rw [this, List.getElem?_eq_getElem hc]
  rw [hget]
  rfl

theorem palAt_step {s : List Char} {i j : Int} (hi : 0 ≤ i) (hij : i < j)
    (hj : j < s.length) :
    PalAt s i j ↔ charAt s i = charAt s j ∧ PalAt s (i + 1) (j - 1) := by
  obtain ⟨a, c, ha, hc, hsub⟩ := substr_split s i.toNat (j - i - 1).toNat (by omega)
  have e1 : (j - i + 1).toNat = (j - i - 1).toNat + 2 := by omega
  have e2 : (i + 1).toNat = i.toNat + 1 := by omega
  have e3 : (j - 1 - (i + 1) + 1).toNat = (j - i - 1).toNat := by omega
  have e4 : j.toNat = i.toNat + (j - i - 1).toNat + 1 := by omega
  unfold PalAt charAt
  rw [if_pos hi, if_pos (by omega : 0 ≤ j), e1, e2, e3, e4, hsub, ha, hc,
    palindromic_cons_snoc]
  simp

theorem palAt_short (s : List Char) {i j : Int} (h : j ≤ i) : PalAt s i j := by
  apply palindromic_of_length_le_one
  have : (j - i + 1).toNat ≤ 1 := by omega
  simp only [substr, List.length_take]
  omega

/-! ## One step of the scan -/

theorem body_spec {s : List Char} {n : Int} {st : State} {L i : Int}
    (hn : (s.length : Int) = n) (hsq : Square n st.dp)
    (hL : 2 ≤ L) (hi : 0 ≤ i) (hj : i + L ≤ n) :
    ∃ v dp1, setCell st.dp i (i + L - 1) v = some dp1 ∧
      (v = true ↔ charAt s i = charAt s (i + L - 1) ∧
        (L ≤ 3 ∨ getCell st.dp (i + 1) (i + L - 1 - 1) = some true)) ∧
      body s L i st = some (if v = true ∧ L > st.len then { dp := dp1, begin := i, len := L }
        else { dp := dp1, begin := st.begin, len := st.len }) := by
  obtain ⟨si, hsi⟩ := charAt_isSome (s := s) (k := i) hi (by omega)
  obtain ⟨sj, hsj⟩ := charAt_isSome (s := s) (k := i + L - 1) (by omega) (by omega)
  have hset : ∀ v, ∃ dp1, setCell st.dp i (i + L - 1) v = some dp1 := fun v =>
    setCell_isSome hsq hi (by omega) (by omega) (by omega) v
  by_cases hne : si = sj
  · by_cases h3 : L ≤ 3
    · obtain ⟨dp1, hdp1⟩ := hset true
      have hget := getCell_setCell hdp1 i (i + L - 1)
      refine ⟨true, dp1, hdp1, by simp [hsi, hsj, hne, h3], ?_⟩
      simp [body, hsi, hsj, hne, h3, hdp1, hget]
      split <;> rfl
    · obtain ⟨w, hw⟩ := getCell_isSome hsq (a := i + 1) (b := i + L - 1 - 1)
        (by omega) (by omega) (by omega) (by omega)
      obtain ⟨dp1, hdp1⟩ := hset w
      have hget := getCell_setCell hdp1 i (i + L - 1)
      refine ⟨w, dp1, hdp1, by simp [hsi, hsj, hne, h3, hw], ?_⟩
      simp [body, hsi, hsj, hne, h3, hw, hdp1, hget]
      split <;> rfl
  · obtain ⟨dp1, hdp1⟩ := hset false
    have hget := getCell_setCell hdp1 i (i + L - 1)
    refine ⟨false, dp1, hdp1, by simp [hsi, hsj, hne], ?_⟩
    simp [body, hsi, hsj, hne, hdp1, hget]

/-! ## The invariant of the scan -/

theorem earlier_mem {n : Int} {pre suf : List (Int × Int)} {p q : Int × Int}
    (h : schedule n = pre ++ p :: suf) (hq : q ∈ schedule n) (hlt : Before q p) :
    q ∈ pre := by
  have hs := schedule_sorted n
  rw [h] at hq hs
  rw [List.pairwise_append] at hs
  obtain ⟨_, hps, _⟩ := hs
  rw [List.pairwise_cons] at hps
  rcases List.mem_append.1 hq with hpre | hrest
  · exact hpre
  · exfalso
    rcases List.mem_cons.1 hrest with heq | hsuf
    · subst heq
      unfold Before at hlt
      omega
    · have := hps.1 q hsuf
      unfold Before at hlt this
      omega

theorem mem_taken_iff {n : Int} {pre suf : List (Int × Int)} {p q : Int × Int}
    (h : schedule n = pre ++ p :: suf) :
    q ∈ pre ++ [p] ↔ q ∈ schedule n ∧ (Before q p ∨ q = p) := by
  have hs := schedule_sorted n
  rw [h, List.pairwise_append] at hs
  obtain ⟨_, _, hcross⟩ := hs
  constructor
  · intro hq
    rcases List.mem_append.1 hq with hpre | hlast
    · refine ⟨by rw [h]; exact List.mem_append_left _ hpre, Or.inl ?_⟩
      exact hcross q hpre p (List.mem_cons_self _ _)
    · have hqp : q = p := by simpa using hlast
      exact ⟨by rw [h, hqp]; simp, Or.inr hqp⟩
  · rintro ⟨hq, hlt | heq⟩
    · exact List.mem_append_left _ (earlier_mem h hq hlt)
    · simp [heq]

theorem runSteps_inv {s : List Char} {n : Int} {dp0 : Table} (b0 l0 : Int)
    (hn : (s.length : Int) = n) (hsq : Square n dp0) :
    ∀ pre suf, schedule n = pre ++ suf →
      ∃ st, runSteps s pre { dp := dp0, begin := b0, len := l0 } = some st ∧
        Inv s n dp0 b0 l0 pre st := by
  intro pre
  induction pre using List.reverseRecOn with
  | nil =>
    intro suf _
    refine ⟨_, rfl, ⟨hsq, by simp, by simp, le_refl _, Or.inl ⟨rfl, rfl⟩⟩⟩
  | append_singleton pre p ih =>
    intro suf hsched
    have hsched1 : schedule n = pre ++ p :: suf := by simpa using hsched
    obtain ⟨st, hrun, hinv⟩ := ih (p :: suf) hsched1
    obtain ⟨L, i⟩ := p
    have hmem : (L, i) ∈ schedule n := by rw [hsched1]; simp
    obtain ⟨hL2, hLn, hi0, hin⟩ := mem_schedule.1 hmem
    simp only at hL2 hLn hi0 hin
    obtain ⟨v, dp1, hset, hv, hbody⟩ :=
      @body_spec s _ st L i hn hinv.square hL2 hi0 (by omega)
    have hpal : v = true ↔ PalAt s i (i + L - 1) := by
      rw [hv, palAt_step hi0 (by omega) (by omega)]
      apply and_congr_right
      intro _
      by_cases h3 : L ≤ 3
      · simp only [h3, true_or, true_iff]
        exact palAt_short s (by omega)
      · have hin' : (L - 2, i + 1) ∈ pre :=
          earlier_mem hsched1 (mem_schedule.2 ⟨by simp; omega, by simp; omega,
            by simp; omega, by simp; omega⟩) (Or.inl (by simp))
        have hcell := hinv.cells (i + 1) (i + L - 1 - 1)
        have hidx : i + L - 1 - 1 - (i + 1) + 1 = L - 2 := by omega
        rw [hidx, if_pos hin'] at hcell
        rw [hcell]
        simp [h3]
    have hrun1 : runSteps s (pre ++ [(L, i)]) { dp := dp0, begin := b0, len := l0 }
        = some (if v = true ∧ L > st.len then { dp := dp1, begin := i, len := L }
            else { dp := dp1, begin := st.begin, len := st.len }) := by
      rw [runSteps_append, hrun]
      simp only [Option.some_bind, runSteps, hbody]
    refine ⟨_, hrun1, ?_⟩
    have hsq1 : Square n dp1 := setCell_square hinv.square hset
    have hcells1 : ∀ x y, getCell dp1 x y
        = if (y - x + 1, x) ∈ pre ++ [(L, i)] then some (decide (PalAt s x y))
          else getCell dp0 x y := by
      intro x y
      rw [getCell_setCell hset x y]
      by_cases hxy : x = i ∧ y = i + L - 1
      · obtain ⟨rfl, rfl⟩ := hxy
        have hidx : x + L - 1 - x + 1 = L := by omega
        have hv' : v = decide (PalAt s x (x + L - 1)) := by
          cases v <;> simp_all
        simp [hidx, hv']
      · rw [if_neg hxy, hinv.cells x y]
        have hne : (y - x + 1, x) ≠ (L, i) := by
          intro h
          simp only [Prod.mk.injEq] at h
          omega
        simp [hne]
    by_cases hupd : v = true ∧ L > st.len
    · rw [if_pos hupd]
      have hPal : PalAt s i (i + L - 1) := hpal.1 hupd.1
      have hold : ∀ q ∈ pre, PalAt s q.2 (q.2 + q.1 - 1) → q.1 < L := fun q hq hqp =>
        lt_of_le_of_lt (hinv.bound q hq hqp) hupd.2
      refine ⟨hsq1, hcells1, ?_, ?_, Or.inr ⟨?_, by simp, hPal, ?_⟩⟩
      · intro q hq hqp
        rcases List.mem_append.1 hq with h1 | h1
        · exact le_of_lt (hold q h1 hqp)
        · have : q = (L, i) := by simpa using h1
          simp [this]
      · have := hinv.mono
        simp only
        omega
      · have := hinv.mono
        simp only
        omega
      · intro q hq hqp hqL
        rcases List.mem_append.1 hq with h1 | h1
        · have := hold q h1 hqp
          simp only at hqL
          omega
        · have : q = (L, i) := by simpa using h1
          simp [this]
    · rw [if_neg hupd]
      have hnew : PalAt s i (i + L - 1) → L ≤ st.len := by
        intro hp
        have hvt := hpal.2 hp
        by_contra hcon
        exact hupd ⟨hvt, by omega⟩
      refine ⟨hsq1, hcells1, ?_, hinv.mono, ?_⟩
      · intro q hq hqp
        rcases List.mem_append.1 hq with h1 | h1
        · exact hinv.bound q h1 hqp
        · have : q = (L, i) := by simpa using h1
          subst this
          exact hnew hqp
      · rcases hinv.result with hseed | ⟨h1, h2, h3, h4⟩
        · exact Or.inl hseed
        · refine Or.inr ⟨h1, List.mem_append_left _ h2, h3, ?_⟩
          intro q hq hqp hqL
          rcases List.mem_append.1 hq with hq1 | hq1
          · exact h4 q hq1 hqp hqL
          · have : q = (L, i) := by simpa using hq1
            subst this
            simp only at hqL
            have hb : Before (st.len, st.begin) (L, i) := by
              have hs := schedule_sorted n
              rw [hsched1, List.pairwise_append] at hs
              exact hs.2.2 _ h2 _ (List.mem_cons_self _ _)
            unfold Before at hb
            simp only at hb ⊢
            omega

theorem scan_inv (s : List Char) (dp0 : Table) (b0 l0 : Int)
    (hsq : Square s.length dp0) :
    ∃ st, scan s s.length dp0 b0 l0 = some st ∧
      Inv s s.length dp0 b0 l0 (schedule s.length) st := by
  rw [scan_eq_runSteps]
  exact runSteps_inv b0 l0 rfl hsq (schedule s.length) [] (by simp)

theorem palAt_iff_substr (s : List Char) (b l : Int) :
    PalAt s b (b + l - 1) ↔ Palindromic (substr s b.toNat l.toNat) := by
  unfold PalAt
  have : b + l - 1 - b + 1 = l := by omega
  rw [this]

theorem palAt_of_substr {s : List Char} {b l : Nat} (h : Palindromic (substr s b l)) :
    PalAt s (b : Int) ((b : Int) + (l : Int) - 1) := by
  rw [palAt_iff_substr]
  simpa using h

/-- With the seed `(0, 1)` on a non-empty string the record always names a
palindromic substring inside the string. -/
theorem inv_seed_valid {s : List Char} {dp0 : Table} {pre : List (Int × Int)} {st : State}
    (hlen : 1 ≤ s.length) (hpre : ∀ q ∈ pre, q ∈ schedule s.length)
    (h : Inv s s.length dp0 0 1 pre st) :
    0 ≤ st.begin ∧ 1 ≤ st.len ∧ st.begin + st.len ≤ s.length ∧
      Palindromic (substr s st.begin.toNat st.len.toNat) := by
  rcases h.result with ⟨hb, hl⟩ | ⟨hl, hmem, hpal, _⟩
  · rw [hb, hl]
    refine ⟨le_refl 0, le_refl 1, by omega, ?_⟩
    apply palindromic_of_length_le_one
    simp only [substr, List.length_take]
    omega
  · obtain ⟨h1, h2, h3, h4⟩ := mem_schedule.1 (hpre _ hmem)
    simp only at h1 h2 h3 h4
    exact ⟨h3, by omega, by omega, (palAt_iff_substr s _ _).1 hpal⟩

/-- Every palindromic substring has at most the recorded length. -/
theorem inv_seed_maximal {s : List Char} {dp0 : Table} {st : State}
    (h : Inv s s.length dp0 0 1 (schedule s.length) st) (b l : Nat)
    (hbl : b + l ≤ s.length) (hpal : Palindromic (substr s b l)) : (l : Int) ≤ st.len := by
  by_cases hl : l ≤ 1
  · have := h.mono
    omega
  · have hmem : ((l : Int), (b : Int)) ∈ schedule s.length :=
      mem_schedule.2 ⟨by simp; omega, by simp; omega, by simp, by simp; omega⟩
    exact h.bound _ hmem (palAt_of_substr hpal)

/-- Two runs over the same steps from the same seed record the same result,
whatever the initial tables were. -/
theorem inv_result_unique {s : List Char} {n : Int} {dp1 dp2 : Table} {b0 l0 : Int}
    {pre : List (Int × Int)} {st1 st2 : State}
    (h1 : Inv s n dp1 b0 l0 pre st1) (h2 : Inv s n dp2 b0 l0 pre st2) :
    st1.begin = st2.begin ∧ st1.len = st2.len := by
  rcases h1.result with ⟨hb1, hl1⟩ | ⟨hl1, hm1, hp1, hf1⟩
  · rcases h2.result with ⟨hb2, hl2⟩ | ⟨hl2, hm2, hp2, _⟩
    · exact ⟨by rw [hb1, hb2], by rw [hl1, hl2]⟩
    · have := h1.bound _ hm2 hp2
      simp only at this
      omega
  · rcases h2.result with ⟨hb2, hl2⟩ | ⟨hl2, hm2, hp2, hf2⟩
    · have := h2.bound _ hm1 hp1
      simp only at this
      omega
    · have a1 := h1.bound _ hm2 hp2
      have a2 := h2.bound _ hm1 hp1
      simp only at a1 a2
      have hlen : st1.len = st2.len := by omega
      have c1 := hf1 _ hm2 hp2 hlen.symm
      have c2 := hf2 _ hm1 hp1 hlen
      simp only at c1 c2
      exact ⟨by omega, hlen⟩

/-- The result of the scan on any square table is the one computed on a
reference table. -/
theorem scan_result_of_run {s : List Char} {dp : Table} (dp1 : Table) {b0 l0 b l : Int}
    (hsq : Square s.length dp) (hsq1 : Square s.length dp1)
    (hrun : (runSteps s (schedule s.length) { dp := dp1, begin := b0, len := l0 }).map
      (fun st => (st.begin, st.len)) = some (b, l)) :
    ∃ st, scan s s.length dp b0 l0 = some st ∧ st.begin = b ∧ st.len = l := by
  obtain ⟨st, hst, hinv⟩ := scan_inv s dp b0 l0 hsq
  obtain ⟨st1, hst1, hinv1⟩ := scan_inv s dp1 b0 l0 hsq1
  rw [scan_eq_runSteps] at hst1
  rw [hst1] at hrun
  simp only [Option.map_some', Option.some.injEq, Prod.mk.injEq] at hrun
  have := inv_result_unique hinv hinv1
  exact ⟨st, hst, by omega, by omega⟩

/-- A step at a length that does not exceed the recorded one keeps the record. -/
theorem body_keeps {s : List Char} {L i : Int} {st st1 : State}
    (h : body s L i st = some st1) (hL : L ≤ st.len) :
    st1.begin = st.begin ∧ st1.len = st.len := by
  unfold body at h
  simp only at h
  split at h
  · split at h
    · split at h
      · split at h
        · rename_i hc
          omega
        · cases h
          exact ⟨rfl, rfl⟩
      · cases h
    · cases h
  · cases h

theorem schedule_eq_nil {n : Int} (h : n ≤ 1) : schedule n = [] := by
  have : (n - 1).toNat = 0 := by omega
  simp [schedule, this]

/-- What one run of the body does, with no assumption on the table: it stores
a value `v` in `dp[i][j]` and then updates the record by the strict test. -/
theorem body_rule {s : List Char} {L i : Int} {st st1 : State}
    (h : body s L i st = some st1) :
    ∃ v, setCell st.dp i (i + L - 1) v = some st1.dp ∧
      (charAt s i ≠ charAt s (i + L - 1) → v = false) ∧
      (charAt s i = charAt s (i + L - 1) → L ≤ 3 → v = true) ∧
      (charAt s i = charAt s (i + L - 1) → 3 < L →
        getCell st.dp (i + 1) (i + L - 1 - 1) = some v) ∧
      (v = true ∧ L > st.len → st1.begin = i ∧ st1.len = L) ∧
      (¬ (v = true ∧ L > st.len) → st1.begin = st.begin ∧ st1.len = st.len) := by
  unfold body at h
  simp only at h
  split at h
  · rename_i si sj hsi hsj
    have finish : ∀ (v : Bool) (dp1 : Table), setCell st.dp i (i + L - 1) v = some dp1 →
        (match getCell dp1 i (i + L - 1) with
          | some d =>
            if d = true ∧ L > st.len then some { dp := dp1, begin := i, len := L }
            else some { dp := dp1, begin := st.begin, len := st.len }
          | none => none) = some st1 →
        setCell st.dp i (i + L - 1) v = some st1.dp ∧
          (v = true ∧ L > st.len → st1.begin = i ∧ st1.len = L) ∧
          (¬ (v = true ∧ L > st.len) → st1.begin = st.begin ∧ st1.len = st.len) := by
      intro v dp1 hset hres
      have hget := getCell_setCell hset i (i + L - 1)
      simp only [and_self, if_true] at hget
      rw [hget] at hres
      simp only at hres
      by_cases hc : v = true ∧ L > st.len
      · rw [if_pos hc] at hres
        cases hres
        exact ⟨hset, fun _ => ⟨rfl, rfl⟩, fun hn => absurd hc hn⟩
      · rw [if_neg hc] at hres
        cases hres
        exact ⟨hset, fun hp => absurd hp hc, fun _ => ⟨rfl, rfl⟩⟩
    rw [hsi, hsj]
    by_cases hne : si = sj
    · by_cases h3 : L ≤ 3
      · simp only [hne, ne_eq, not_true_eq_false, if_false, h3, if_true] at h
        cases hw : setCell st.dp i (i + L - 1) true with
        | none => rw [hw] at h; cases h
        | some dp1 =>
          rw [hw] at h
          obtain ⟨a, b, c⟩ := finish true dp1 hw h
          exact ⟨true, a, by simp [hne], fun _ _ => rfl, fun _ hl => by omega, b, c⟩
      · simp only [hne, ne_eq, not_true_eq_false, if_false, h3] at h
        cases hr : getCell st.dp (i + 1) (i + L - 1 - 1) with
        | none => rw [hr] at h; cases h
        | some w =>
          rw [hr] at h
          simp only at h
          cases hw : setCell st.dp i (i + L - 1) w with
          | none => rw [hw] at h; cases h
          | some dp1 =>
            rw [hw] at h
            obtain ⟨a, b, c⟩ := finish w dp1 hw h
            exact ⟨w, a, by simp [hne], fun _ hl => absurd hl h3, fun _ _ => rfl, b, c⟩
    · simp only [ne_eq, hne, not_false_eq_true, if_true] at h
      cases hw : setCell st.dp i (i + L - 1) false with
      | none => rw [hw] at h; cases h
      | some dp1 =>
        rw [hw] at h
        obtain ⟨a, b, c⟩ := finish false dp1 hw h
        exact ⟨false, a, fun _ => rfl, by simp [hne], by simp [hne], b, c⟩
  · cases h

/-- The body never lowers the recorded length. -/
theorem body_len_le {s : List Char} {L i : Int} {st st1 : State}
    (h : body s L i st = some st1) : st.len ≤ st1.len := by
  obtain ⟨v, _, _, _, _, hupd, hkeep⟩ := body_rule h
  by_cases hc : v = true ∧ L > st.len
  · have := (hupd hc).2
    omega
  · exact le_of_eq (hkeep hc).2.symm

/-! ## Short palindromes -/

theorem charAt_natCast (s : List Char) (i : Nat) : charAt s (i : Int) = s[i]? := by
  simp [charAt]

/-- A palindromic substring of length at least 2 has at its centre two equal
symbols that are adjacent or one apart. -/
theorem exists_centre {s : List Char} :
    ∀ (k : Nat) (b l : Int), l ≤ k → 2 ≤ l → 0 ≤ b → b + l ≤ s.length →
      PalAt s b (b + l - 1) →
      ∃ i : Nat, (i + 1 < s.length ∧ s[i]? = s[i + 1]?) ∨
        (i + 2 < s.length ∧ s[i]? = s[i + 2]?) := by
  intro k
  induction k with
  | zero => intro b l hk hl; omega
  | succ k ih =>
    intro b l hk hl hb hbl hpal
    rw [palAt_step hb (by omega) (by omega)] at hpal
    obtain ⟨hch, hin⟩ := hpal
    by_cases h3 : l ≤ 3
    · refine ⟨b.toNat, ?_⟩
      have hcast : ((b.toNat : Nat) : Int) = b := by omega
      rw [← charAt_natCast, ← charAt_natCast, ← charAt_natCast, hcast]
      rcases (by omega : l = 2 ∨ l = 3) with h | h
      · left
        subst h
        refine ⟨by omega, ?_⟩
        have e : ((b.toNat + 1 : Nat) : Int) = b + 2 - 1 := by omega
        rw [e]
        exact hch
      · right
        subst h
        refine ⟨by omega, ?_⟩
        have e : ((b.toNat + 2 : Nat) : Int) = b + 3 - 1 := by omega
        rw [e]
        exact hch
    · have e : b + l - 1 - 1 = (b + 1) + (l - 2) - 1 := by omega
      rw [e] at hin
      exact ih (b + 1) (l - 2) (by omega) (by omega) (by omega) (by omega) hin

theorem palAt_pair {s : List Char} {i : Nat} (h : i + 1 < s.length)
    (heq : s[i]? = s[i + 1]?) : Palindromic (substr s i 2) := by
  have hp : PalAt s (i : Int) ((i : Int) + 2 - 1) := by
    rw [palAt_step (by omega) (by omega) (by omega)]
    refine ⟨?_, palAt_short s (by omega)⟩
    have e : (i : Int) + 2 - 1 = ((i + 1 : Nat) : Int) := by omega
    rw [e, charAt_natCast, charAt_natCast]
    exact heq
  simpa using (palAt_iff_substr s i 2).1 hp

theorem palAt_triple {s : List Char} {i : Nat} (h : i + 2 < s.length)
    (heq : s[i]? = s[i + 2]?) : Palindromic (substr s i 3) := by
  have hp : PalAt s (i : Int) ((i : Int) + 3 - 1) := by
    rw [palAt_step (by omega) (by omega) (by omega)]
    refine ⟨?_, palAt_short s (by omega)⟩
    have e : (i : Int) + 3 - 1 = ((i + 2 : Nat) : Int) := by omega
    rw [e, charAt_natCast, charAt_natCast]
    exact heq
  simpa using (palAt_iff_substr s i 3).1 hp

/-! ## Substrings of the reversed string -/

theorem substr_of_append (u t v : List Char) :
    substr (u ++ t ++ v) u.length t.length = t := by
  simp [substr]

theorem append_of_substr (s : List Char) (b l : Nat) (h : b + l ≤ s.length) :
    s = s.take b ++ substr s b l ++ s.drop (b + l) ∧ (s.take b).length = b ∧
      (substr s b l).length = l := by
  refine ⟨?_, by simp; omega, by simp [substr]; omega⟩
  unfold substr
  rw [List.append_assoc, ← List.drop_drop, List.take_append_drop, List.take_append_drop]

/-- The longest palindrome recorded for `s` is matched by the run on a string
`r` that is `s` reversed. -/
theorem reverse_len_le {s r : List Char} {dp dp1 : Table} {st st1 : State}
    (hr : r = s.reverse) (hlen : 1 ≤ s.length)
    (hinv : Inv s s.length dp 0 1 (schedule s.length) st)
    (hinv1 : Inv r r.length dp1 0 1 (schedule r.length) st1) :
    st.len ≤ st1.len := by
  obtain ⟨h1, h2, h3, h4⟩ := inv_seed_valid hlen (fun _ hq => hq) hinv
  obtain ⟨hs, hu, ht⟩ := append_of_substr s st.begin.toNat st.len.toNat (by omega)
  have hrev : r = (s.drop (st.begin.toNat + st.len.toNat)).reverse
      ++ substr s st.begin.toNat st.len.toNat ++ (s.take st.begin.toNat).reverse := by
    have hpal : (substr s st.begin.toNat st.len.toNat).reverse
        = substr s st.begin.toNat st.len.toNat := h4
    rw [hr]
    conv => lhs; rw [hs]
    rw [List.reverse_append, List.reverse_append, hpal, List.append_assoc]
  have hsub := substr_of_append (s.drop (st.begin.toNat + st.len.toNat)).reverse
    (substr s st.begin.toNat st.len.toNat) (s.take st.begin.toNat).reverse
  rw [← hrev] at hsub
  have hp : Palindromic (substr r (s.drop (st.begin.toNat + st.len.toNat)).reverse.length
      (substr s st.begin.toNat st.len.toNat).length) := by
    rw [hsub]
    exact h4
  have hbound : (s.drop (st.begin.toNat + st.len.toNat)).reverse.length
      + (substr s st.begin.toNat st.len.toNat).length ≤ r.length := by
    rw [hr, List.length_reverse, List.length_reverse, List.length_drop, ht]
    omega
  have := inv_seed_maximal hinv1 _ _ hbound hp
  rw [ht] at this
  omega

/-! ## The contract of the scan -/

/-- C1 (validity): on a non-empty string with an `n`-by-`n` table and the seed
`begin = 0`, `len = 1`, the scan returns a record with `0 ≤ begin ≤ n-1`,
`1 ≤ len ≤ n`, `begin + len ≤ n` and `s[begin .. begin+len-1]` a palindrome;
on `cbbd` it returns `begin = 1`, `len = 2`. -/
theorem validity (s : List Char) (dp : Table) (hlen : 1 ≤ s.length)
    (hsq : Square s.length dp) :
    (∃ st, scan s s.length dp 0 1 = some st ∧
      0 ≤ st.begin ∧ st.begin ≤ (s.length : Int) - 1 ∧ 1 ≤ st.len ∧ st.len ≤ s.length ∧
      st.begin + st.len ≤ s.length ∧
      Palindromic (substr s st.begin.toNat st.len.toNat)) ∧
    (∀ dp4, Square cbbd.length dp4 →
      ∃ st, scan cbbd cbbd.length dp4 0 1 = some st ∧ st.begin = 1 ∧ st.len = 2) := by
  constructor
  · obtain ⟨st, hst, hinv⟩ := scan_inv s dp 0 1 hsq
    obtain ⟨h1, h2, h3, h4⟩ := inv_seed_valid hlen (fun _ hq => hq) hinv
    exact ⟨st, hst, h1, by omega, h2, by omega, h3, h4⟩
  · intro dp4 h4
    exact scan_result_of_run (blank 4) h4 (by decide) (by decide)

theorem validity_witness :
    1 ≤ cbbd.length ∧ Square cbbd.length (blank 4) ∧
      ∃ st, scan cbbd cbbd.length (blank 4) 0 1 = some st ∧
        0 ≤ st.begin ∧ st.begin ≤ (cbbd.length : Int) - 1 ∧ 1 ≤ st.len ∧
        st.len ≤ cbbd.length ∧ st.begin + st.len ≤ cbbd.length ∧
        Palindromic (substr cbbd st.begin.toNat st.len.toNat) :=
  ⟨by decide, by decide, (validity cbbd (blank 4) (by decide) (by decide)).1⟩

/-- C2 (maximality): after the scan seeded `begin = 0`, `len = 1` on a string
with an `n`-by-`n` table (non-empty or not), no contiguous substring of `s` longer than the returned `len` is a
palindrome; on `aaaa` the scan returns `begin = 0`, `len = 4`. -/
theorem maximality (s : List Char) (dp : Table) (hsq : Square s.length dp) :
    (∃ st, scan s s.length dp 0 1 = some st ∧
      (∀ b l : Nat, b + l ≤ s.length → st.len < l → ¬ Palindromic (substr s b l)) ∧
      (∀ u t v : List Char, s = u ++ t ++ v → st.len < t.length → ¬ Palindromic t)) ∧
    (∀ dp4, Square aaaa.length dp4 →
      ∃ st, scan aaaa aaaa.length dp4 0 1 = some st ∧ st.begin = 0 ∧ st.len = 4) := by
  constructor
  · obtain ⟨st, hst, hinv⟩ := scan_inv s dp 0 1 hsq
    have hmax : ∀ b l : Nat, b + l ≤ s.length → st.len < l → ¬ Palindromic (substr s b l) := by
      intro b l hbl hlt hpal
      have := inv_seed_maximal hinv b l hbl hpal
      omega
    refine ⟨st, hst, hmax, ?_⟩
    intro u t v hs hlt
    have hsub : substr s u.length t.length = t := by
      simp [substr, hs]
    have := hmax u.length t.length (by simp [hs]) hlt
    rwa [hsub] at this
  · intro dp4 h4
    exact scan_result_of_run (blank 4) h4 (by decide) (by decide)

theorem maximality_witness :
    Square aaaa.length (blank 4) ∧
      ∃ st, scan aaaa aaaa.length (blank 4) 0 1 = some st ∧
        (∀ b l : Nat, b + l ≤ aaaa.length → st.len < l → ¬ Palindromic (substr aaaa b l)) ∧
        (∀ u t v : List Char, aaaa = u ++ t ++ v → st.len < t.length → ¬ Palindromic t) :=
  ⟨by decide, (maximality aaaa (blank 4) (by decide)).1⟩

/-- C3 (tie-break): after the scan seeded `begin = 0`, `len = 1` on a non-empty
string, the returned `len` is the maximal palindromic length and `begin` is the
smallest index at which a palindrome of that length starts; a step at a length
that does not exceed the recorded one never changes the record; on `babad` the
scan returns `begin = 0`, `len = 3`, on `abcde` it returns `begin = 0`, `len = 1`. -/
theorem tie_break (s : List Char) (dp : Table) (hlen : 1 ≤ s.length)
    (hsq : Square s.length dp) :
    (∃ st, scan s s.length dp 0 1 = some st ∧
      0 ≤ st.begin ∧ 0 ≤ st.len ∧ st.begin + st.len ≤ s.length ∧
      Palindromic (substr s st.begin.toNat st.len.toNat) ∧
      (∀ b l : Nat, b + l ≤ s.length → Palindromic (substr s b l) → (l : Int) ≤ st.len) ∧
      (∀ b : Nat, b + st.len.toNat ≤ s.length → Palindromic (substr s b st.len.toNat) →
        st.begin ≤ b)) ∧
    (∀ (L i : Int) (st st1 : State), body s L i st = some st1 → L ≤ st.len →
      st1.begin = st.begin ∧ st1.len = st.len) ∧
    (∀ dp5, Square babad.length dp5 →
      ∃ st, scan babad babad.length dp5 0 1 = some st ∧ st.begin = 0 ∧ st.len = 3) ∧
    (∀ dp5, Square abcde.length dp5 →
      ∃ st, scan abcde abcde.length dp5 0 1 = some st ∧ st.begin = 0 ∧ st.len = 1) := by
  refine ⟨?_, fun L i st st1 h hL => body_keeps h hL, ?_, ?_⟩
  · obtain ⟨st, hst, hinv⟩ := scan_inv s dp 0 1 hsq
    obtain ⟨h1, h2, h3, h4⟩ := inv_seed_valid hlen (fun _ hq => hq) hinv
    refine ⟨st, hst, h1, by omega, h3, h4, inv_seed_maximal hinv, ?_⟩
    intro b hb hpal
    rcases hinv.result with ⟨hb0, _⟩ | ⟨hl, _, _, hfirst⟩
    · rw [hb0]
      omega
    · have hmem : (st.len, (b : Int)) ∈ schedule s.length :=
        mem_schedule.2 ⟨by simp; omega, by simp; omega, by simp, by simp; omega⟩
      have hp : PalAt s (b : Int) ((b : Int) + st.len - 1) := by
        rw [palAt_iff_substr]
        simpa using hpal
      exact hfirst _ hmem hp rfl
  · intro dp5 h5
    exact scan_result_of_run (blank 5) h5 (by decide) (by decide)
  · intro dp5 h5
    exact scan_result_of_run (blank 5) h5 (by decide) (by decide)

theorem tie_break_witness :
    1 ≤ babad.length ∧ Square babad.length (blank 5) ∧
      ∃ st, scan babad babad.length (blank 5) 0 1 = some st ∧
        0 ≤ st.begin ∧ 0 ≤ st.len ∧ st.begin + st.len ≤ babad.length ∧
        Palindromic (substr babad st.begin.toNat st.len.toNat) ∧
        (∀ b l : Nat, b + l ≤ babad.length → Palindromic (substr babad b l) →
          (l : Int) ≤ st.len) ∧
        (∀ b : Nat, b + st.len.toNat ≤ babad.length →
          Palindromic (substr babad b st.len.toNat) → st.begin ≤ b) :=
  ⟨by decide, by decide, (tie_break babad (blank 5) (by decide) (by decide)).1⟩

/-- C4 (table meaning): after the scan on an `n`-by-`n` table with any initial
content and any seed, for all `0 ≤ i < j ≤ n-1` the entry `dp[i][j]` is true
exactly when `s[i..j]` is a palindrome. -/
theorem table_meaning (s : List Char) (dp : Table) (b0 l0 : Int)
    (hsq : Square s.length dp) :
    ∃ st, scan s s.length dp b0 l0 = some st ∧
      ∀ i j : Int, 0 ≤ i → i < j → j ≤ (s.length : Int) - 1 →
        (getCell st.dp i j).isSome ∧
        (getCell st.dp i j = some true ↔
          Palindromic (substr s i.toNat (j - i + 1).toNat)) := by
  obtain ⟨st, hst, hinv⟩ := scan_inv s dp b0 l0 hsq
  refine ⟨st, hst, ?_⟩
  intro i j hi hij hj
  have hmem : (j - i + 1, i) ∈ schedule s.length :=
    mem_schedule.2 ⟨by simp; omega, by simp; omega, by simp; omega, by simp; omega⟩
  have hcell := hinv.cells i j
  rw [if_pos hmem] at hcell
  rw [hcell]
  simp [PalAt]

theorem table_meaning_witness :
    Square cbbd.length (blank 4) ∧
      ∃ st, scan cbbd cbbd.length (blank 4) 7 (-2) = some st ∧
        ∀ i j : Int, 0 ≤ i → i < j → j ≤ (cbbd.length : Int) - 1 →
          (getCell st.dp i j).isSome ∧
          (getCell st.dp i j = some true ↔
            Palindromic (substr cbbd i.toNat (j - i + 1).toNat)) :=
  ⟨by decide, table_meaning cbbd (blank 4) 7 (-2) (by decide)⟩

/-- C5 (index safety): on an `n`-by-`n` table the scan never leaves the checked
accesses: it returns a state, and at every step `(L, i)` with `j = i+L-1` it
holds that `0 ≤ i < j ≤ n-1`, when `L > 3` also `0 ≤ i+1 < j-1 ≤ n-1`, the
reads `s[i]`, `s[j]`, `dp[i][j]` and (for `L > 3`) `dp[i+1][j-1]` succeed and
the body returns a state. -/
theorem index_safety (s : List Char) (dp : Table) (b0 l0 : Int)
    (hsq : Square s.length dp) :
    (∃ st, scan s s.length dp b0 l0 = some st) ∧
    scan s s.length dp b0 l0
      = runSteps s (schedule s.length) { dp := dp, begin := b0, len := l0 } ∧
    ∀ pre L i suf, schedule s.length = pre ++ (L, i) :: suf →
      (0 ≤ i ∧ i < i + L - 1 ∧ i + L - 1 ≤ (s.length : Int) - 1) ∧
      (3 < L → 0 ≤ i + 1 ∧ i + 1 < i + L - 1 - 1 ∧ i + L - 1 - 1 ≤ (s.length : Int) - 1) ∧
      ∃ st st1, runSteps s pre { dp := dp, begin := b0, len := l0 } = some st ∧
        body s L i st = some st1 ∧
        (charAt s i).isSome ∧ (charAt s (i + L - 1)).isSome ∧
        (getCell st.dp i (i + L - 1)).isSome ∧
        (3 < L → (getCell st.dp (i + 1) (i + L - 1 - 1)).isSome) := by
  refine ⟨?_, scan_eq_runSteps _ _ _ _ _, ?_⟩
  · obtain ⟨st, hst, _⟩ := scan_inv s dp b0 l0 hsq
    exact ⟨st, hst⟩
  · intro pre L i suf hsched
    have hmem : (L, i) ∈ schedule s.length := by rw [hsched]; simp
    obtain ⟨hL2, hLn, hi0, hin⟩ := mem_schedule.1 hmem
    simp only at hL2 hLn hi0 hin
    obtain ⟨st, hrun, hinv⟩ := runSteps_inv b0 l0 rfl hsq pre ((L, i) :: suf) hsched
    obtain ⟨v, dp1, _, _, hbody⟩ :=
      @body_spec s _ st L i rfl hinv.square hL2 hi0 (by omega)
    obtain ⟨c1, hc1⟩ := charAt_isSome (s := s) (k := i) hi0 (by omega)
    obtain ⟨c2, hc2⟩ := charAt_isSome (s := s) (k := i + L - 1) (by omega) (by omega)
    obtain ⟨w, hw⟩ := getCell_isSome hinv.square (a := i) (b := i + L - 1)
      hi0 (by omega) (by omega) (by omega)
    refine ⟨⟨hi0, by omega, by omega⟩, fun h3 => ⟨by omega, by omega, by omega⟩,
      st, _, hrun, hbody, by simp [hc1], by simp [hc2], by simp [hw], ?_⟩
    intro h3
    obtain ⟨w1, hw1⟩ := getCell_isSome hinv.square (a := i + 1) (b := i + L - 1 - 1)
      (by omega) (by omega) (by omega) (by omega)
    simp [hw1]

theorem index_safety_witness :
    Square aaaa.length (blank 4) ∧ ∃ st, scan aaaa aaaa.length (blank 4) 0 1 = some st :=
  ⟨by decide, (index_safety aaaa (blank 4) 0 1 (by decide)).1⟩

/-- C6 (no forward dependency): whenever a step `(L, i)` with `L > 3` reads
`dp[i+1][j-1]`, the step `(L-2, i+1)`, which writes exactly that cell and has
`L-2 ≥ 2`, was taken earlier in the same scan, so the cell then holds the
palindrome verdict and not its initial content; and for any two initial
`n`-by-`n` tables the scan from the same seed returns the same `begin`, the same
`len` and the same value in every cell with `i < j`. -/
theorem no_forward_dependency (s : List Char) (dp1 dp2 : Table) (b0 l0 : Int)
    (hsq1 : Square s.length dp1) (hsq2 : Square s.length dp2) :
    (∀ pre L i suf, schedule s.length = pre ++ (L, i) :: suf → 3 < L →
      2 ≤ L - 2 ∧ (L - 2, i + 1) ∈ pre ∧ (i + 1) + (L - 2) - 1 = i + L - 1 - 1 ∧
      ∃ st, runSteps s pre { dp := dp1, begin := b0, len := l0 } = some st ∧
        getCell st.dp (i + 1) (i + L - 1 - 1)
          = some (decide (PalAt s (i + 1) (i + L - 1 - 1)))) ∧
    ∃ st1 st2, scan s s.length dp1 b0 l0 = some st1 ∧ scan s s.length dp2 b0 l0 = some st2 ∧
      st1.begin = st2.begin ∧ st1.len = st2.len ∧
      ∀ i j : Int, 0 ≤ i → i < j → j < s.length →
        (getCell st1.dp i j).isSome ∧ getCell st1.dp i j = getCell st2.dp i j := by
  constructor
  · intro pre L i suf hsched h3
    have hmem : (L, i) ∈ schedule s.length := by rw [hsched]; simp
    obtain ⟨hL2, hLn, hi0, hin⟩ := mem_schedule.1 hmem
    simp only at hL2 hLn hi0 hin
    have hin1 : (L - 2, i + 1) ∈ pre :=
      earlier_mem hsched (mem_schedule.2 ⟨by simp; omega, by simp; omega,
        by simp; omega, by simp; omega⟩) (Or.inl (by simp))
    obtain ⟨st, hrun, hinv⟩ := runSteps_inv b0 l0 rfl hsq1 pre ((L, i) :: suf) hsched
    refine ⟨by omega, hin1, by omega, st, hrun, ?_⟩
    have hidx : i + L - 1 - 1 - (i + 1) + 1 = L - 2 := by omega
    rw [hinv.cells, hidx, if_pos hin1]
  · obtain ⟨st1, hst1, hinv1⟩ := scan_inv s dp1 b0 l0 hsq1
    obtain ⟨st2, hst2, hinv2⟩ := scan_inv s dp2 b0 l0 hsq2
    obtain ⟨hb, hl⟩ := inv_result_unique hinv1 hinv2
    refine ⟨st1, st2, hst1, hst2, hb, hl, ?_⟩
    intro i j hi hij hj
    have hmem : (j - i + 1, i) ∈ schedule s.length :=
      mem_schedule.2 ⟨by simp; omega, by simp; omega, by simp; omega, by simp; omega⟩
    rw [hinv1.cells i j, hinv2.cells i j, if_pos hmem, if_pos hmem]
    simp

theorem no_forward_dependency_witness :
    Square aaaa.length (blank 4) ∧
    Square aaaa.length (List.replicate 4 (List.replicate 4 true)) ∧
    ∃ st1 st2, scan aaaa aaaa.length (blank 4) 0 1 = some st1 ∧
      scan aaaa aaaa.length (List.replicate 4 (List.replicate 4 true)) 0 1 = some st2 ∧
      st1.begin = st2.begin ∧ st1.len = st2.len ∧
      ∀ i j : Int, 0 ≤ i → i < j → j < aaaa.length →
        (getCell st1.dp i j).isSome ∧ getCell st1.dp i j = getCell st2.dp i j :=
  ⟨by decide, by decide,
    (no_forward_dependency aaaa (blank 4) (List.replicate 4 (List.replicate 4 true)) 0 1
      (by decide) (by decide)).2⟩

/-- C7 (result-record invariant): with the seed `begin = 0`, `len = 1` on a
non-empty string, after every step `(L, i)` the steps taken so far are exactly
the substrings of length `2..L-1` and those of length `L` starting at an index
`≤ i`; `len` is the maximum of 1 and the lengths of the palindromes among them;
and `0 ≤ begin`, `begin + len ≤ n` with `s[begin .. begin+len-1]` a palindrome. -/
theorem result_invariant (s : List Char) (dp : Table) (hlen : 1 ≤ s.length)
    (hsq : Square s.length dp) :
    scan s s.length dp 0 1
      = runSteps s (schedule s.length) { dp := dp, begin := 0, len := 1 } ∧
    ∀ pre L i suf, schedule s.length = pre ++ (L, i) :: suf →
      (∀ q : Int × Int, q ∈ pre ++ [(L, i)] ↔
        2 ≤ q.1 ∧ 0 ≤ q.2 ∧ q.2 + q.1 ≤ s.length ∧ (q.1 < L ∨ (q.1 = L ∧ q.2 ≤ i))) ∧
      ∃ st, runSteps s (pre ++ [(L, i)]) { dp := dp, begin := 0, len := 1 } = some st ∧
        1 ≤ st.len ∧
        (∀ q ∈ pre ++ [(L, i)], Palindromic (substr s q.2.toNat q.1.toNat) → q.1 ≤ st.len) ∧
        (st.len = 1 ∨ ∃ q ∈ pre ++ [(L, i)],
          Palindromic (substr s q.2.toNat q.1.toNat) ∧ q.1 = st.len) ∧
        0 ≤ st.begin ∧ st.begin + st.len ≤ s.length ∧
        Palindromic (substr s st.begin.toNat st.len.toNat) := by
  refine ⟨scan_eq_runSteps _ _ _ _ _, ?_⟩
  intro pre L i suf hsched
  have hmem : (L, i) ∈ schedule s.length := by rw [hsched]; simp
  obtain ⟨hL2, hLn, hi0, hin⟩ := mem_schedule.1 hmem
  simp only at hL2 hLn hi0 hin
  have hsub : ∀ q ∈ pre ++ [(L, i)], q ∈ schedule s.length := fun q hq =>
    ((mem_taken_iff hsched).1 hq).1
  constructor
  · intro q
    rw [mem_taken_iff hsched, mem_schedule]
    obtain ⟨a, b⟩ := q
    simp only [Before, Prod.mk.injEq]
    constructor
    · rintro ⟨⟨h1, h2, h3, h4⟩, h5⟩
      refine ⟨h1, h3, by omega, by omega⟩
    · rintro ⟨h1, h2, h3, h4⟩
      refine ⟨⟨h1, by omega, h2, by omega⟩, by omega⟩
  · obtain ⟨st, hrun, hinv⟩ :=
      @runSteps_inv s _ dp 0 1 rfl hsq (pre ++ [(L, i)]) suf (by simpa using hsched)
    obtain ⟨h1, h2, h3, h4⟩ := inv_seed_valid hlen hsub hinv
    refine ⟨st, hrun, h2, ?_, ?_, h1, h3, h4⟩
    · intro q hq hpal
      exact hinv.bound q hq ((palAt_iff_substr s q.2 q.1).2 hpal)
    · rcases hinv.result with ⟨_, hl⟩ | ⟨_, hm, hp, _⟩
      · exact Or.inl hl
      · exact Or.inr ⟨_, hm, (palAt_iff_substr s _ _).1 hp, rfl⟩

theorem result_invariant_witness :
    1 ≤ cbbd.length ∧ Square cbbd.length (blank 4) ∧
      scan cbbd cbbd.length (blank 4) 0 1
        = runSteps cbbd (schedule cbbd.length) { dp := blank 4, begin := 0, len := 1 } :=
  ⟨by decide, by decide, (result_invariant cbbd (blank 4) (by decide) (by decide)).1⟩

/-- C8 (boundary inputs): on a string of length `n ≤ 1` the scan takes no step
and returns the table, `begin` and `len` as they were initialised; so the empty
string with `len` initialised to 0 yields length 0, and a one-symbol string
seeded `begin = 0`, `len = 1` yields `(0, 1)`. -/
theorem boundary_inputs (s : List Char) (dp : Table) (b0 l0 : Int) (hlen : s.length ≤ 1) :
    schedule s.length = [] ∧
    scan s s.length dp b0 l0 = some { dp := dp, begin := b0, len := l0 } ∧
    (∀ dp0 b, scan [] 0 dp0 b 0 = some { dp := dp0, begin := b, len := 0 }) ∧
    (∀ (c : Char) dp1, scan [c] 1 dp1 0 1 = some { dp := dp1, begin := 0, len := 1 }) := by
  have hnil : ∀ n : Int, n ≤ 1 → ∀ (t : List Char) (d : Table) (b l : Int),
      scan t n d b l = some { dp := d, begin := b, len := l } := by
    intro n hn t d b l
    rw [scan_eq_runSteps, schedule_eq_nil hn]
    rfl
  refine ⟨schedule_eq_nil (by omega), hnil _ (by omega) _ _ _ _, ?_, ?_⟩
  · intro dp0 b
    exact hnil 0 (by omega) _ _ _ _
  · intro c dp1
    exact hnil 1 (by omega) _ _ _ _

theorem boundary_inputs_witness :
    ['a'].length ≤ 1 ∧
      scan ['a'] (['a'].length : Nat) (blank 1) 0 1
        = some { dp := blank 1, begin := 0, len := 1 } :=
  ⟨by decide, (boundary_inputs ['a'] (blank 1) 0 1 (by decide)).2.1⟩

/-- C9 (totality): the scan is a total function; for every table and seed it
is the body run along the finite schedule `L = 2..n`, `i = 0..n-L` in scan
order, which has `n(n-1)/2` steps, and on an `n`-by-`n` table it returns a
state. -/
theorem totality (s : List Char) (dp : Table) (b0 l0 : Int) (hsq : Square s.length dp) :
    (∃ st, scan s s.length dp b0 l0 = some st) ∧
    (∀ (d : Table) (b l : Int), scan s s.length d b l
      = runSteps s (schedule s.length) { dp := d, begin := b, len := l }) ∧
    (∀ L i : Int, (L, i) ∈ schedule s.length ↔
      2 ≤ L ∧ L ≤ s.length ∧ 0 ≤ i ∧ i ≤ (s.length : Int) - L) ∧
    (schedule s.length).Pairwise Before ∧
    (schedule s.length).length = s.length * (s.length - 1) / 2 := by
  refine ⟨?_, fun d b l => scan_eq_runSteps _ _ _ _ _, fun L i => mem_schedule,
    schedule_sorted _, ?_⟩
  · obtain ⟨st, hst, _⟩ := scan_inv s dp b0 l0 hsq
    exact ⟨st, hst⟩
  · cases hs : s.length with
    | zero => simp [schedule_eq_nil]
    | succ m =>
      have h := schedule_length_nat m
      have hcast : ((m + 1 : Nat) : Int) = (m : Int) + 1 := by push_cast; rfl
      rw [hcast]
      have hmul : (m + 1) * (m + 1 - 1) = m * (m + 1) := by
        rw [Nat.add_sub_cancel, Nat.mul_comm]
      rw [hmul]
      omega

theorem totality_witness :
    Square babad.length (blank 5) ∧
      (∃ st, scan babad babad.length (blank 5) 0 1 = some st) ∧
      (schedule babad.length).length = 10 :=
  ⟨by decide, (totality babad (blank 5) 0 1 (by decide)).1,
    (totality babad (blank 5) 0 1 (by decide)).2.2.2.2⟩

/-- C10 (frame of the table): every step writes a cell with `i < j`, and at
every point of the scan, hence also at its end, each cell `dp[i][j]` with
`i ≥ j` (in particular each diagonal cell `dp[i][i]`) holds the value it had
before the scan. -/
theorem table_frame (s : List Char) (dp : Table) (b0 l0 : Int) (hsq : Square s.length dp) :
    (∀ L i : Int, (L, i) ∈ schedule s.length → i < i + L - 1) ∧
    (∀ pre suf, schedule s.length = pre ++ suf →
      ∃ st, runSteps s pre { dp := dp, begin := b0, len := l0 } = some st ∧
        ∀ i j : Int, j ≤ i → getCell st.dp i j = getCell dp i j) ∧
    ∃ st, scan s s.length dp b0 l0 = some st ∧
      (∀ i j : Int, j ≤ i → getCell st.dp i j = getCell dp i j) ∧
      ∀ i : Int, getCell st.dp i i = getCell dp i i := by
  have hframe : ∀ (pre : List (Int × Int)) (st : State),
      (∀ q ∈ pre, q ∈ schedule s.length) → Inv s s.length dp b0 l0 pre st →
      ∀ i j : Int, j ≤ i → getCell st.dp i j = getCell dp i j := by
    intro pre st hsub hinv i j hji
    rw [hinv.cells i j, if_neg]
    intro hmem
    have := (mem_schedule.1 (hsub _ hmem)).1
    simp only at this
    omega
  refine ⟨?_, ?_, ?_⟩
  · intro L i hmem
    have := (mem_schedule.1 hmem).1
    simp only at this
    omega
  · intro pre suf hsched
    obtain ⟨st, hrun, hinv⟩ := runSteps_inv b0 l0 rfl hsq pre suf hsched
    refine ⟨st, hrun, hframe pre st ?_ hinv⟩
    intro q hq
    rw [hsched]
    exact List.mem_append_left _ hq
  · obtain ⟨st, hst, hinv⟩ := scan_inv s dp b0 l0 hsq
    have h := hframe _ st (fun _ hq => hq) hinv
    exact ⟨st, hst, h, fun i => h i i (le_refl i)⟩

theorem table_frame_witness :
    Square aaaa.length (blank 4) ∧
      ∃ st, scan aaaa aaaa.length (blank 4) 0 1 = some st ∧
        (∀ i j : Int, j ≤ i → getCell st.dp i j = getCell (blank 4) i j) ∧
        ∀ i : Int, getCell st.dp i i = getCell (blank 4) i i :=
  ⟨by decide, (table_frame aaaa (blank 4) 0 1 (by decide)).2.2⟩

/-! ## Behaviour of the scan -/

/-- C11 (missing seed): with `len` initialised to 0 the scan returns `len = 0`
exactly when `s` has no palindromic substring of length at least 2, which is
exactly when no index `i` has `s[i] = s[i+1]` or `s[i] = s[i+2]`, and then
`begin` still holds its initial value; on `abcde` it returns length 0. -/
theorem missing_seed (s : List Char) (dp : Table) (b0 : Int) (hsq : Square s.length dp) :
    (∃ st, scan s s.length dp b0 0 = some st ∧
      (st.len = 0 ↔
        ¬ ∃ b l : Nat, 2 ≤ l ∧ b + l ≤ s.length ∧ Palindromic (substr s b l)) ∧
      (st.len = 0 ↔
        ¬ ∃ i : Nat, (i + 1 < s.length ∧ s[i]? = s[i + 1]?) ∨
          (i + 2 < s.length ∧ s[i]? = s[i + 2]?)) ∧
      (st.len = 0 → st.begin = b0)) ∧
    (∀ dp5, Square abcde.length dp5 →
      ∃ st, scan abcde abcde.length dp5 0 0 = some st ∧ st.begin = 0 ∧ st.len = 0) := by
  constructor
  · obtain ⟨st, hst, hinv⟩ := scan_inv s dp b0 0 hsq
    have hiff : st.len = 0 ↔
        ¬ ∃ b l : Nat, 2 ≤ l ∧ b + l ≤ s.length ∧ Palindromic (substr s b l) := by
      constructor
      · rintro h0 ⟨b, l, hl, hbl, hpal⟩
        have hmem : ((l : Int), (b : Int)) ∈ schedule s.length :=
          mem_schedule.2 ⟨by simp; omega, by simp; omega, by simp, by simp; omega⟩
        have := hinv.bound _ hmem (palAt_of_substr hpal)
        simp only at this
        omega
      · intro hno
        rcases hinv.result with ⟨_, hl⟩ | ⟨hl, hmem, hpal, _⟩
        · exact hl
        · exfalso
          obtain ⟨h1, h2, h3, h4⟩ := mem_schedule.1 hmem
          simp only at h1 h2 h3 h4
          apply hno
          refine ⟨st.begin.toNat, st.len.toNat, by omega, by omega, ?_⟩
          exact (palAt_iff_substr s _ _).1 hpal
    have hcentre : (∃ b l : Nat, 2 ≤ l ∧ b + l ≤ s.length ∧ Palindromic (substr s b l)) ↔
        ∃ i : Nat, (i + 1 < s.length ∧ s[i]? = s[i + 1]?) ∨
          (i + 2 < s.length ∧ s[i]? = s[i + 2]?) := by
      constructor
      · rintro ⟨b, l, hl, hbl, hpal⟩
        exact exists_centre l (b : Int) (l : Int) (le_refl _) (by omega) (by omega)
          (by omega) (palAt_of_substr hpal)
      · rintro ⟨i, ⟨h, heq⟩ | ⟨h, heq⟩⟩
        · exact ⟨i, 2, le_refl 2, by omega, palAt_pair h heq⟩
        · exact ⟨i, 3, by omega, by omega, palAt_triple h heq⟩
    refine ⟨st, hst, hiff, by rw [hiff, hcentre], ?_⟩
    intro h0
    rcases hinv.result with ⟨hb, _⟩ | ⟨hl, _⟩
    · exact hb
    · omega
  · intro dp5 h5
    exact scan_result_of_run (blank 5) h5 (by decide) (by decide)

theorem missing_seed_witness :
    Square abcde.length (blank 5) ∧
      ∃ st, scan abcde abcde.length (blank 5) 0 0 = some st ∧ st.begin = 0 ∧ st.len = 0 :=
  ⟨by decide, (missing_seed abcde (blank 5) 0 (by decide)).2 (blank 5) (by decide)⟩

/-- C12 (single-step rule): one step at `(L, i)` with `j = i+L-1` returns a
state whose table differs from the old one only at cell `(i, j)`; that cell is
false when `s[i] ≠ s[j]`, true when `s[i] = s[j]` and `L ≤ 3`, and the current
value of `dp[i+1][j-1]` when `s[i] = s[j]` and `L > 3`; the record becomes
`(i, L)` if the new `dp[i][j]` is true and `L > len`, and is unchanged otherwise. -/
theorem single_step (s : List Char) (L i : Int) (st : State)
    (hsq : Square s.length st.dp) (hL : 2 ≤ L) (hi : 0 ≤ i) (hj : i + L ≤ s.length) :
    ∃ st1, body s L i st = some st1 ∧
      Square s.length st1.dp ∧
      (∀ x y : Int, ¬ (x = i ∧ y = i + L - 1) → getCell st1.dp x y = getCell st.dp x y) ∧
      (charAt s i ≠ charAt s (i + L - 1) → getCell st1.dp i (i + L - 1) = some false) ∧
      (charAt s i = charAt s (i + L - 1) → L ≤ 3 →
        getCell st1.dp i (i + L - 1) = some true) ∧
      (charAt s i = charAt s (i + L - 1) → 3 < L →
        getCell st1.dp i (i + L - 1) = getCell st.dp (i + 1) (i + L - 1 - 1)) ∧
      (getCell st1.dp i (i + L - 1) = some true ∧ L > st.len →
        st1.begin = i ∧ st1.len = L) ∧
      (¬ (getCell st1.dp i (i + L - 1) = some true ∧ L > st.len) →
        st1.begin = st.begin ∧ st1.len = st.len) := by
  obtain ⟨v0, dp1, _, _, hbody⟩ := @body_spec s _ st L i rfl hsq hL hi hj
  obtain ⟨v, hset, hne, hle, hgt, hupd, hkeep⟩ := body_rule hbody
  have hcell := getCell_setCell hset
  have hnew : getCell
      (if v0 = true ∧ L > st.len then ({ dp := dp1, begin := i, len := L } : State)
        else { dp := dp1, begin := st.begin, len := st.len }).dp i (i + L - 1) = some v := by
    rw [hcell]
    simp
  refine ⟨_, hbody, setCell_square hsq hset, ?_, ?_, ?_, ?_, ?_, ?_⟩
  · intro x y hxy
    rw [hcell x y, if_neg hxy]
  · intro h
    rw [hnew, hne h]
  · intro h h3
    rw [hnew, hle h h3]
  · intro h h3
    rw [hnew, hgt h h3]
  · rw [hnew]
    intro h
    exact hupd ⟨by simpa using h.1, h.2⟩
  · rw [hnew]
    intro h
    apply hkeep
    intro hc
    exact h ⟨by simp [hc.1], hc.2⟩

theorem single_step_witness :
    Square aaaa.length (blank 4) ∧ (2 : Int) ≤ 2 ∧ (0 : Int) ≤ 1 ∧
      (1 : Int) + 2 ≤ aaaa.length ∧
      ∃ st1, body aaaa 2 1 { dp := blank 4, begin := 0, len := 1 } = some st1 ∧
        Square aaaa.length st1.dp ∧
        (∀ x y : Int, ¬ (x = 1 ∧ y = 1 + 2 - 1) →
          getCell st1.dp x y = getCell (blank 4) x y) ∧
        (charAt aaaa 1 ≠ charAt aaaa (1 + 2 - 1) →
          getCell st1.dp 1 (1 + 2 - 1) = some false) ∧
        (charAt aaaa 1 = charAt aaaa (1 + 2 - 1) → (2 : Int) ≤ 3 →
          getCell st1.dp 1 (1 + 2 - 1) = some true) ∧
        (charAt aaaa 1 = charAt aaaa (1 + 2 - 1) → (3 : Int) < 2 →
          getCell st1.dp 1 (1 + 2 - 1) = getCell (blank 4) (1 + 1) (1 + 2 - 1 - 1)) ∧
        (getCell st1.dp 1 (1 + 2 - 1) = some true ∧ (2 : Int) > 1 →
          st1.begin = 1 ∧ st1.len = 2) ∧
        (¬ (getCell st1.dp 1 (1 + 2 - 1) = some true ∧ (2 : Int) > 1) →
          st1.begin = 0 ∧ st1.len = 1) :=
  ⟨by decide, by decide, by decide, by decide,
    single_step aaaa 2 1 { dp := blank 4, begin := 0, len := 1 }
      (by decide) (by decide) (by decide) (by decide)⟩

/-- C13 (seed-independent monotonicity): for arbitrary initial `begin0`, `len0`
the recorded `len` never decreases from one step to the next; the final record
is either `(begin0, len0)` unchanged or has `len0 < len ≤ n`, `0 ≤ begin`,
`begin + len ≤ n` and `s[begin .. begin+len-1]` a palindrome; and when
`len0 ≥ n` the result is `(begin0, len0)`. -/
theorem seed_monotone (s : List Char) (dp : Table) (b0 l0 : Int)
    (hsq : Square s.length dp) :
    (∀ (L i : Int) (st st1 : State), body s L i st = some st1 → st.len ≤ st1.len) ∧
    (∀ pre L i suf, schedule s.length = pre ++ (L, i) :: suf →
      ∃ st st1, runSteps s pre { dp := dp, begin := b0, len := l0 } = some st ∧
        runSteps s (pre ++ [(L, i)]) { dp := dp, begin := b0, len := l0 } = some st1 ∧
        l0 ≤ st.len ∧ st.len ≤ st1.len) ∧
    ∃ st, scan s s.length dp b0 l0 = some st ∧
      ((st.begin = b0 ∧ st.len = l0) ∨
        (l0 < st.len ∧ st.len ≤ s.length ∧ 0 ≤ st.begin ∧ st.begin + st.len ≤ s.length ∧
          Palindromic (substr s st.begin.toNat st.len.toNat))) ∧
      ((s.length : Int) ≤ l0 → st.begin = b0 ∧ st.len = l0) := by
  refine ⟨fun L i st st1 h => body_len_le h, ?_, ?_⟩
  · intro pre L i suf hsched
    have hmem : (L, i) ∈ schedule s.length := by rw [hsched]; simp
    obtain ⟨hL2, hLn, hi0, hin⟩ := mem_schedule.1 hmem
    simp only at hL2 hLn hi0 hin
    obtain ⟨st, hrun, hinv⟩ := runSteps_inv b0 l0 rfl hsq pre ((L, i) :: suf) hsched
    obtain ⟨v, dp1, _, _, hbody⟩ :=
      @body_spec s _ st L i rfl hinv.square hL2 hi0 (by omega)
    refine ⟨st, _, hrun, ?_, hinv.mono, body_len_le hbody⟩
    rw [runSteps_append, hrun]
    simp only [Option.some_bind, runSteps, hbody]
  · obtain ⟨st, hst, hinv⟩ := scan_inv s dp b0 l0 hsq
    have hres : (st.begin = b0 ∧ st.len = l0) ∨
        (l0 < st.len ∧ st.len ≤ s.length ∧ 0 ≤ st.begin ∧ st.begin + st.len ≤ s.length ∧
          Palindromic (substr s st.begin.toNat st.len.toNat)) := by
      rcases hinv.result with hseed | ⟨hl, hmem, hpal, _⟩
      · exact Or.inl hseed
      · obtain ⟨h1, h2, h3, h4⟩ := mem_schedule.1 hmem
        simp only at h1 h2 h3 h4
        exact Or.inr ⟨hl, h2, h3, by omega, (palAt_iff_substr s _ _).1 hpal⟩
    refine ⟨st, hst, hres, ?_⟩
    intro hbig
    rcases hres with hseed | ⟨hl, hn, _⟩
    · exact hseed
    · omega

theorem seed_monotone_witness :
    Square aaaa.length (blank 4) ∧
      ∃ st, scan aaaa aaaa.length (blank 4) 9 3 = some st ∧
        ((st.begin = 9 ∧ st.len = 3) ∨
          (3 < st.len ∧ st.len ≤ aaaa.length ∧ 0 ≤ st.begin ∧
            st.begin + st.len ≤ aaaa.length ∧
            Palindromic (substr aaaa st.begin.toNat st.len.toNat))) ∧
        ((aaaa.length : Int) ≤ 3 → st.begin = 9 ∧ st.len = 3) :=
  ⟨by decide, (seed_monotone aaaa (blank 4) 9 3 (by decide)).2.2⟩

/-- C14 (reversal symmetry): on a non-empty string the scan seeded `begin = 0`,
`len = 1` returns on the reversed string the same `len` as on the string itself;
the returned `begin` may differ, as on `aab`, where it is 0, and on its
reversal, where it is 1. -/
theorem reversal_symmetry (s : List Char) (dp dp1 : Table) (hlen : 1 ≤ s.length)
    (hsq : Square s.length dp) (hsq1 : Square s.reverse.length dp1) :
    (∃ st st1, scan s s.length dp 0 1 = some st ∧
      scan s.reverse s.reverse.length dp1 0 1 = some st1 ∧ st1.len = st.len) ∧
    (scan aab aab.length (blank 3) 0 1).map (fun st => (st.begin, st.len)) = some (0, 2) ∧
    (scan aab.reverse aab.reverse.length (blank 3) 0 1).map (fun st => (st.begin, st.len))
      = some (1, 2) := by
  refine ⟨?_, by rw [scan_eq_runSteps]; decide, by rw [scan_eq_runSteps]; decide⟩
  obtain ⟨st, hst, hinv⟩ := scan_inv s dp 0 1 hsq
  obtain ⟨st1, hst1, hinv1⟩ := scan_inv s.reverse dp1 0 1 hsq1
  have hle := reverse_len_le rfl hlen hinv hinv1
  have hge := reverse_len_le (List.reverse_reverse s).symm
    (by rw [List.length_reverse]; exact hlen) hinv1 hinv
  exact ⟨st, st1, hst, hst1, by omega⟩

theorem reversal_symmetry_witness :
    1 ≤ aab.length ∧ Square aab.length (blank 3) ∧ Square aab.reverse.length (blank 3) ∧
      ∃ st st1, scan aab aab.length (blank 3) 0 1 = some st ∧
        scan aab.reverse aab.reverse.length (blank 3) 0 1 = some st1 ∧ st1.len = st.len :=
  ⟨by decide, by decide, by decide,
    (reversal_symmetry aab (blank 3) (blank 3) (by decide) (by decide) (by decide)).1⟩

end LongestPalindrome
